import Mathlib

/-!
Verification of the identifier core of a Kademlia-style DHT (pymdht,
`core/identifier.py`, Python 2).  Python byte strings are modelled as
`List Nat` (each element a byte value 0..255 for genuine strings), Python
arbitrary-precision integers as `Int`, and the exceptions that the module
can raise as an explicit error type.  Construction (`Id.__init__`) is
embedded as `Id.make : IdInput → Except PErr Id`.
-/

namespace Pymdht

/-- BITS_PER_BYTE = 8 (source line 22). -/
def BITS_PER_BYTE : Nat := 8

/-- ID_SIZE_BYTES = 20 (source line 23). -/
def ID_SIZE_BYTES : Nat := 20

/-- ID_SIZE_BITS = ID_SIZE_BYTES * BITS_PER_BYTE = 160 (source line 24). -/
def ID_SIZE_BITS : Nat := ID_SIZE_BYTES * BITS_PER_BYTE

/-- Exceptions the embedded code can raise: `IdError` (the module's own
data-validation error, called `MalformedIdentifier` in the spec),
`TypeError` (raised by `base64.b16decode` / `binascii.unhexlify` on bad
digits or odd length), and `AssertionError` (from `assert`). -/
inductive PErr where
  | idError
  | typeError
  | assertError
deriving DecidableEq, Repr

/-- Python `str.upper()` on a single byte: maps letters a-z to A-Z. -/
def toUpperByte (c : Nat) : Nat :=
  if 97 ≤ c ∧ c ≤ 122 then c - 32 else c

/-- Character class `[0-9A-F]` used by the regex in `base64.b16decode`. -/
def isUpperHexByte (c : Nat) : Bool :=
  decide ((48 ≤ c ∧ c ≤ 57) ∨ (65 ≤ c ∧ c ≤ 70))

/-- Hex digit value of a byte, as Python's base-16 machinery sees it
(0-9, A-F, a-f; anything else is never reached behind the regex check). -/
def hexVal (c : Nat) : Nat :=
  if 48 ≤ c ∧ c ≤ 57 then c - 48
  else if 65 ≤ c ∧ c ≤ 70 then c - 55
  else if 97 ≤ c ∧ c ≤ 102 then c - 87
  else 0

/-- Lowercase hex digit character for a value 0..15 (as `'%x'` prints). -/
def hexCharLower (d : Nat) : Nat :=
  if d < 10 then 48 + d else 87 + d

/-- Uppercase hex digit character for a value 0..15 (as
`binascii.hexlify(..).upper()` prints). -/
def hexCharUpper (d : Nat) : Nat :=
  if d < 10 then 48 + d else 55 + d

/-- Big-endian value of a byte string (mathematical helper used to state
properties about buffers). -/
def beVal (l : List Nat) : Nat :=
  l.foldl (fun acc b => acc * 256 + b) 0

/-- Value of a hex digit string, as Python's `int(s, 16)` computes it on
the (always valid, sign-free) hex representations stored by `Id`. -/
def hexToNat (s : List Nat) : Nat :=
  s.foldl (fun acc c => acc * 16 + hexVal c) 0

/-- Lowercase hex digits of `n` (no leading zeros; `0` prints as one
digit), written with explicit fuel; `natToHexChars` supplies enough. -/
def natToHexCharsAux : Nat → Nat → List Nat
  | 0, _ => []
  | fuel + 1, n =>
    if n < 16 then [hexCharLower n]
    else natToHexCharsAux fuel (n / 16) ++ [hexCharLower (n % 16)]

/-- Lowercase hex digits of `n`, as Python's `'%x' % n` prints a
non-negative integer. -/
def natToHexChars (n : Nat) : List Nat :=
  natToHexCharsAux (n + 1) n

/-- Pad a digit string with `'0'` (byte 48) on the left to width `w`
(no-op when already at least that long). -/
def leftPad0 (w : Nat) (l : List Nat) : List Nat :=
  List.replicate (w - l.length) 48 ++ l

/-- Python 2 `'%040x' % n`: lowercase hex, zero-padded to a minimum total
width of 40; a negative number gets a leading `'-'` (byte 45) inside the
padded width. -/
def percent040x (n : Int) : List Nat :=
  if n < 0 then 45 :: leftPad0 39 (natToHexChars n.natAbs)
  else leftPad0 40 (natToHexChars n.toNat)

/-- `binascii.unhexlify`: pairs of hex digits to bytes; raises
`TypeError` on an odd-length string or a non-hex digit. -/
def unhexlify : List Nat → Except PErr (List Nat)
  | [] => .ok []
  | [_] => .error .typeError
  | c1 :: c2 :: rest =>
    if isUpperHexByte c1 ∨ isUpperHexByte (toUpperByte c1) then
      if isUpperHexByte c2 ∨ isUpperHexByte (toUpperByte c2) then
        match unhexlify rest with
        | .ok bs => .ok ((hexVal c1 * 16 + hexVal c2) :: bs)
        | .error e => .error e
      else .error .typeError
    else .error .typeError

/-- `base64.b16encode` = `binascii.hexlify(s).upper()` (source line 29 via
`_bin_to_hex`). -/
def b16encode : List Nat → List Nat
  | [] => []
  | b :: rest => hexCharUpper (b / 16) :: hexCharUpper (b % 16) :: b16encode rest

/-- Python 2 `base64.b16decode(s, casefold)`: optionally uppercase the
input, reject any character outside `[0-9A-F]` with `TypeError`, then
`binascii.unhexlify`. -/
def b16decode (s : List Nat) (casefold : Bool) : Except PErr (List Nat) :=
  let s' := if casefold then s.map toUpperByte else s
  if s'.any (fun c => !(isUpperHexByte c)) then .error .typeError
  else unhexlify s'

/-- `_hex_to_bin` (source lines 31-35): `base64.b16decode(hex_str, True)`
with a bare `except` that converts any failure into `IdError`. -/
def hex_to_bin (s : List Nat) : Except PErr (List Nat) :=
  match b16decode s true with
  | .ok b => .ok b
  | .error _ => .error .idError

/-- The two runtime shapes `Id.__init__` dispatches on: a Python `str`
(bytes) or a Python `int`/`long`. -/
inductive IdInput where
  | str : List Nat → IdInput
  | intg : Int → IdInput

/-- A genuine Python value of the given shape: the elements of a `str`
are bytes 0..255 (integers are unconstrained). -/
def InputOK : IdInput → Prop
  | .str s => ∀ c ∈ s, c < 256
  | .intg _ => True

/-- The `Id` object: `bin_id` is `self._bin_id`/`self._bin`; `hexRep`
models the `self._hex` cache exactly as `__init__` leaves it (`none` for
the 20-byte path, the verbatim input string for the 40-char path, the
`'%040x'` rendering for the integer path); `intCache` models `self._int`
(set only by the integer path). -/
structure Id where
  bin_id : List Nat
  hexRep : Option (List Nat)
  intCache : Option Nat
deriving DecidableEq, Repr

/-- `Id.__init__` (source lines 82-99): a 20-char string is stored
verbatim; a 40-char string is stored as `_hex` and decoded through
`_hex_to_bin`; an integer is formatted with `'%040x'` and decoded with
`base64.b16decode` WITHOUT casefold (an uncaught `TypeError` escapes for
any hex letter digit, since `'%x'` prints lowercase); any other string
length raises `IdError`.  A non-empty decoded buffer always passes the
final `if not self._bin_id` check. -/
def Id.make : IdInput → Except PErr Id
  | .str s =>
    if s.length = ID_SIZE_BYTES then
      .ok ⟨s, none, none⟩
    else if s.length = ID_SIZE_BYTES * 2 then
      match hex_to_bin s with
      | .ok b => .ok ⟨b, some s, none⟩
      | .error e => .error e
    else .error .idError
  | .intg n =>
    let hx := percent040x n
    match b16decode hx false with
    | .ok b => .ok ⟨b, some hx, some n.toNat⟩
    | .error e => .error e

/-- The `bin` property (alias of the canonical buffer, source line 110). -/
def Id.bin (x : Id) : List Nat := x.bin_id

/-- The `hex` property (source lines 113-117): return the cached `_hex`
when set, otherwise `_bin_to_hex(self._bin)`. -/
def Id.hex (x : Id) : List Nat :=
  x.hexRep.getD (b16encode x.bin_id)

/-- The `int` property (source lines 119-123): `self._int` when cached
and non-zero (Python's `if not self._int` treats 0 as unset), otherwise
`int(self.hex, 16)`. -/
def Id.int (x : Id) : Nat :=
  match x.intCache with
  | some n => if n = 0 then hexToNat x.hex else n
  | none => hexToNat x.hex

/-- `Id.distance` (source lines 137-143): `Id(self.int ^ other.int)`. -/
def Id.distance (self other : Id) : Except PErr Id :=
  Id.make (.intg (Nat.xor self.int other.int))

/-- `_first_different_byte` (source lines 41-48), fused with how
`log_distance` consumes it: the loop runs `i` over `range(len(str1))`;
`none` models the `IndexError` paths (no difference found, or `str2[i]`
out of range), which `log_distance` catches. -/
def fdbAux : List Nat → List Nat → Nat → Option Nat
  | [], _, _ => none
  | c :: rest, s2, i =>
    if i < s2.length then
      if c ≠ s2.getD i 0 then some i else fdbAux rest s2 (i + 1)
    else none

/-- Position of the first differing byte of two buffers (`none` =
`IndexError`). -/
def first_different_byte (s1 s2 : List Nat) : Option Nat :=
  fdbAux s1 s2 0

/-- The `while byte >> (BITS_PER_BYTE - 1) == 0: byte <<= 1; i += 1` loop
of `_first_different_bit` (source lines 56-61), with explicit fuel; with
a non-zero byte it exits within 7 shifts, so any fuel of at least 8 gives
the loop's true result (proved below for claim C10). -/
def fdbitLoop : Nat → Nat → Nat → Nat
  | 0, _, i => i
  | fuel + 1, byte, i =>
    if byte >>> (BITS_PER_BYTE - 1) = 0 then fdbitLoop fuel (byte <<< 1) (i + 1)
    else i

/-- `_first_different_bit(byte1, byte2)` (source lines 50-61): position
of the most significant differing bit, counted from bit 7 downwards. -/
def first_different_bit (byte1 byte2 : Nat) : Nat :=
  fdbitLoop 8 (Nat.xor byte1 byte2) 0

/-- `Id.log_distance` (source lines 145-204). -/
def Id.log_distance (self other : Id) : Int :=
  match first_different_byte self.bin_id other.bin_id with
  | none => -1
  | some byte_i =>
    let unmatching_bytes : Int := (ID_SIZE_BYTES : Int) - byte_i - 1
    let byte1 := self.bin_id.getD byte_i 0
    let byte2 := other.bin_id.getD byte_i 0
    let bit_i := first_different_bit byte1 byte2
    let unmatching_bits : Int := (BITS_PER_BYTE : Int) - bit_i - 1
    unmatching_bytes * (BITS_PER_BYTE : Int) + unmatching_bits

/-- The inner selection loop of `order_closest` (source lines 222-227):
scan `j` over the remaining keys tracking `lowest_index`/`lowest
distance`, updating on strict improvement. -/
def selLoop : List Int → Int → Option Nat → Nat → Option Nat
  | [], _, li, _ => li
  | k :: ks, low, li, j =>
    if k < low then selLoop ks k (some j) (j + 1)
    else selLoop ks low li (j + 1)

/-- One selection pass: `lowest_index = None; lowest_distance =
max_distance` with `max_distance = ID_SIZE_BITS + 1` (source line 215). -/
def lowestIndex (keys : List Int) : Option Nat :=
  selLoop keys ((ID_SIZE_BITS : Int) + 1) none 0

/-- The outer loop of `order_closest` (source lines 221-230): `n` times,
pick the first remaining minimum, append it to the result and delete it
from both working lists.  The `none` branch models the crash Python would
have on an exhausted selection; it is unreachable from `order_closest`
because every log-distance is below `ID_SIZE_BITS + 1`. -/
def orderAux {α : Type} [Inhabited α] : Nat → List Int → List α → List α
  | 0, _, _ => []
  | n + 1, keys, ids =>
    match lowestIndex keys with
    | none => []
    | some i => ids.getD i default :: orderAux n (keys.eraseIdx i) (ids.eraseIdx i)

instance : Inhabited Id := ⟨⟨[], none, none⟩⟩

/-- `Id.order_closest` (source lines 207-231): keys are the log distances
of the input elements to `self`; the loop count is `len(id_list)`. -/
def Id.order_closest (self : Id) (id_list : List Id) : List Id :=
  orderAux id_list.length (id_list.map (fun e => self.log_distance e)) id_list

/-- The bit-randomizing loop of `generate_close_id` (source lines
243-247): for each `i` below `bit_num`, clear bit `i` with
`int_byte & (255 - (1 << i))` and add a random bit `randint(0,1) << i`. -/
def randomizeLowBits (bit_num : Nat) (b : Nat) (randBits : Nat → Nat) : Nat :=
  (List.range bit_num).foldl
    (fun ib i => (ib &&& (255 - (1 <<< i))) + (randBits i <<< i)) b

/-- `Id.generate_close_id` (source lines 233-255).  Randomness is passed
in explicitly: `randBits i` is the `random.randint(0, 1)` draw used at
bit `i`, and `randBytes k` the `random.randint(0, 255)` draw used for the
trailing byte at index `k`.  The `assert log_distance < ID_SIZE_BITS` is
the `assertError` guard; a negative argument returns `self` itself. -/
def Id.generate_close_id (self : Id) (log_distance : Int)
    (randBits randBytes : Nat → Nat) : Except PErr Id :=
  if ¬ log_distance < (ID_SIZE_BITS : Int) then .error .assertError
  else if log_distance < 0 then .ok self
  else
    let d := log_distance.toNat
    let byte_num := d / BITS_PER_BYTE
    let bit_num := d % BITS_PER_BYTE
    let byte_index := self.bin_id.length - byte_num - 1
    let int_byte0 := Nat.xor (self.bin_id.getD byte_index 0) (1 <<< bit_num)
    let int_byte := randomizeLowBits bit_num int_byte0 randBits
    let end_bytes := (List.range' (byte_index + 1) (ID_SIZE_BYTES - (byte_index + 1))).map randBytes
    Id.make (.str (self.bin_id.take byte_index ++ int_byte :: end_bytes))

/-- A heap of Python list objects holding `Id` elements; references are
allocation indices.  Used to state the frame property of
`order_closest` (the input list object is not mutated). -/
structure PyHeap where
  cells : List (List Id)

/-- Read the list object at reference `r`. -/
def PyHeap.read (h : PyHeap) (r : Nat) : List Id :=
  h.cells.getD r []

/-- Overwrite the list object at reference `r`. -/
def PyHeap.write (h : PyHeap) (r : Nat) (v : List Id) : PyHeap :=
  ⟨h.cells.set r v⟩

/-- Allocate a fresh list object, returning the new heap and the fresh
reference. -/
def PyHeap.alloc (h : PyHeap) (v : List Id) : PyHeap × Nat :=
  (⟨h.cells ++ [v]⟩, h.cells.length)

/-- The outer loop of `order_closest`, heap-level: `del
id_list_copy[lowest_index]` is an in-place update of the copy object at
reference `c`; the result list and the (local) key list are plain
values. -/
def ocHeapLoop : Nat → List Int → Nat → PyHeap → List Id → PyHeap × List Id
  | 0, _, _, h, res => (h, res)
  | n + 1, keys, c, h, res =>
    match lowestIndex keys with
    | none => (h, res)
    | some i =>
      ocHeapLoop n (keys.eraseIdx i) c (h.write c ((h.read c).eraseIdx i))
        (res ++ [(h.read c).getD i default])

/-- `Id.order_closest` at the heap level: the input list lives at
reference `r`; `id_list_copy = id_list[:]` allocates a fresh object with
the same value; all in-place deletes hit the copy. -/
def Id.order_closest_heap (self : Id) (h : PyHeap) (r : Nat) : PyHeap × List Id :=
  let input := h.read r
  let alloc_result := h.alloc input
  let keys := input.map (fun e => self.log_distance e)
  ocHeapLoop input.length keys alloc_result.2 alloc_result.1 []

/-- A structurally valid identifier: a canonical buffer of exactly 20
genuine bytes (what every `Id` built by `Id.make` from genuine Python
input satisfies). -/
def Valid (x : Id) : Prop :=
  x.bin_id.length = ID_SIZE_BYTES ∧ ∀ c ∈ x.bin_id, c < 256

instance (x : Id) : Decidable (Valid x) := by
  unfold Valid; infer_instance

/-- An `Id` as actually produced by construction from a genuine Python
value (bytes of a real `str` are below 256). -/
def Id.WF (x : Id) : Prop :=
  ∃ inp, InputOK inp ∧ Id.make inp = .ok x

/-- The XOR-metric value of two identifiers: the big-endian value of the
bytewise XOR of the two canonical buffers (spec section 4.2; the code's
own `distance` is meant to compute the same value through integer XOR). -/
def xorDistanceVal (a b : Id) : Nat :=
  beVal (List.zipWith (fun u v => Nat.xor u v) a.bin_id b.bin_id)

/-- Decidable equality of `Except` results, so that evaluations of the
embedded code can be settled by `decide`. -/
instance {ε α : Type} [DecidableEq ε] [DecidableEq α] : DecidableEq (Except ε α) := fun x y =>
  match x, y with
  | .ok a, .ok b =>
    if h : a = b then isTrue (by rw [h])
    else isFalse (fun hc => h (by cases hc; rfl))
  | .error a, .error b =>
    if h : a = b then isTrue (by rw [h])
    else isFalse (fun hc => h (by cases hc; rfl))
  | .ok _, .error _ => isFalse (fun hc => Except.noConfusion hc)
  | .error _, .ok _ => isFalse (fun hc => Except.noConfusion hc)

/-! Concrete identifiers used in evaluations and witnesses. -/

/-- The all-zero 20-byte buffer. -/
def zBin : List Nat := List.replicate 20 0

/-- The all-zero identifier, as built from its 20-byte buffer. -/
def zId : Id := ⟨zBin, none, none⟩

/-- Buffer whose last byte is 10 (0x0a), the rest zero. -/
def tenBin : List Nat := List.replicate 19 0 ++ [10]

/-- Identifier with integer value 10, as built from its buffer. -/
def tenId : Id := ⟨tenBin, none, none⟩

/-- Buffer whose last byte is 1, the rest zero. -/
def oneBin : List Nat := List.replicate 19 0 ++ [1]

/-- Identifier with integer value 1, as built from its buffer. -/
def oneId : Id := ⟨oneBin, none, none⟩

/-- The 40-character lowercase hex string of the all-ones identifier
(40 times byte 102 = letter f). -/
def ffHex : List Nat := List.replicate 40 102

/-- The all-ones 20-byte buffer. -/
def ffBin : List Nat := List.replicate 20 255

/-- The all-ones identifier as built from the lowercase hex string: the
`_hex` cache keeps the verbatim (lowercase) input. -/
def ffHexId : Id := ⟨ffBin, some ffHex, none⟩

/-- The all-ones identifier as built from the raw 20-byte buffer: no
`_hex` cache, so `hex` later renders uppercase. -/
def ffBinId : Id := ⟨ffBin, none, none⟩

/-- The 21-byte buffer that `Id(2**164)` ends up storing. -/
def overflowBin : List Nat := 16 :: List.replicate 20 0

/-- C1: `distance(a, b)` is claimed to succeed for every pair of valid
identifiers and return the bytewise XOR.  On the code it raises: for the
valid identifiers with values 0 and 10, `Id(self.int ^ other.int)`
formats 10 as lowercase `'...0a'` and `base64.b16decode` without casefold
rejects the letter, so `distance` raises `TypeError` instead of returning
an `Id` (source line 96 lacks the `casefold=True` that `_hex_to_bin` uses
on line 33). -/
theorem claim_C1_eval :
    Id.make (.str zBin) = .ok zId ∧
    Id.make (.str tenBin) = .ok tenId ∧
    zId.distance tenId = .error .typeError := by decide

/-- C2: construction from an integer is claimed to succeed for every
`0 ≤ n < 2^160`.  On the code `Id(10)` raises `TypeError`: `'%040x' % 10`
is lowercase `'...0a'` and line 96 decodes it without casefold. -/
theorem claim_C2_eval :
    Id.make (.intg 10) = .error .typeError := by decide

set_option maxRecDepth 100000 in
/-- C3: malformed integers are claimed to raise `MalformedIdentifier`
(`IdError`) and nothing is claimed to escape.  On the code `Id(-1)` and
`Id(2**160)` raise `TypeError` (not `IdError`), and `Id(2**164)` raises
nothing at all: its 42-digit hex rendering decodes to a 21-byte buffer
that passes the `if not self._bin_id` check, so a malformed identifier
escapes construction. -/
theorem claim_C3_eval :
    Id.make (.intg (-1)) = .error .typeError ∧
    Id.make (.intg ((2 : Int) ^ 160)) = .error .typeError ∧
    Id.make (.intg ((2 : Int) ^ 164)) =
      .ok ⟨overflowBin, some (percent040x ((2 : Int) ^ 164)), some (2 ^ 164)⟩ ∧
    overflowBin.length = 21 := by decide

/-- C7 counterexample: the claim says every call with a target outside
`[-1, 160)` fails loudly, and in particular never silently returns an
Identifier.  The code only asserts the upper bound, so the out-of-range
target -2 silently returns `self`. -/
theorem claim_C7_counterexample :
    zId.generate_close_id (-2) (fun _ => 0) (fun _ => 0) = .ok zId := by decide

/-- C7 amended: only the upper precondition violation (`target ≥ 160`)
fails assertion-style (an `AssertionError`, distinct from `IdError`);
any negative target, including the out-of-range ones below -1, is
treated like the -1 sentinel and returns `self` without failing. -/
theorem claim_C7_amended (self : Id) (d : Int) (f g : Nat → Nat) :
    ((ID_SIZE_BITS : Int) ≤ d → self.generate_close_id d f g = .error .assertError) ∧
    (d < 0 → self.generate_close_id d f g = .ok self) := by
  constructor
  · intro hd
    unfold Id.generate_close_id
    rw [if_pos]
    omega
  · intro hd
    unfold Id.generate_close_id
    rw [if_neg, if_pos hd]
    simp only [not_not]
    show d < (160 : Int)
    omega

/-- Witness for C7 amended at concrete inputs 200 and -5. -/
theorem claim_C7_amended_witness :
    (zId.generate_close_id 200 (fun _ => 0) (fun _ => 0) = .error .assertError) ∧
    (zId.generate_close_id (-5) (fun _ => 0) (fun _ => 0) = .ok zId) :=
  ⟨(claim_C7_amended zId 200 (fun _ => 0) (fun _ => 0)).1 (by decide),
   (claim_C7_amended zId (-5) (fun _ => 0) (fun _ => 0)).2 (by decide)⟩

/-- C8 counterexample: the claim says equal identifiers produce identical
hex strings in one canonical case.  On the code the hex form of an
identifier built from a 40-char hex string is the verbatim input
(lowercase here), while the hex form of the equal identifier built from
the raw bytes is rendered uppercase by `b16encode`: the two equal
identifiers disagree on `hex`. -/
theorem claim_C8_counterexample :
    Id.make (.str ffHex) = .ok ffHexId ∧
    Id.make (.str ffBin) = .ok ffBinId ∧
    ffHexId.bin_id = ffBinId.bin_id ∧
    ffHexId.hex ≠ ffBinId.hex := by decide

/-! Characterization of the byte scan `_first_different_byte`. -/

lemma fdbAux_eq_none (s1 s2 : List Nat) :
    ∀ i, (∀ j, j < s1.length → s1.getD j 0 = s2.getD (i + j) 0) →
      i + s1.length ≤ s2.length → fdbAux s1 s2 i = none := by
  induction s1 with
  | nil => intro i _ _; rfl
  | cons c rest ih =>
    intro i hpre hlen
    have hi : i < s2.length := by simp at hlen; omega
    have hc : c = s2.getD i 0 := by
      have := hpre 0 (by simp)
      simpa using this
    unfold fdbAux
    rw [if_pos hi, if_neg (by simpa using hc)]
    apply ih
    · intro j hj
      have := hpre (j + 1) (by simp; omega)
      simpa [Nat.add_assoc, Nat.add_comm 1 j] using this
    · simp at hlen ⊢; omega

lemma fdbAux_none_eq (s1 s2 : List Nat) :
    ∀ i, s2.length = i + s1.length → fdbAux s1 s2 i = none →
      ∀ j, j < s1.length → s1.getD j 0 = s2.getD (i + j) 0 := by
  induction s1 with
  | nil => intro i _ _ j hj; simp at hj
  | cons c rest ih =>
    intro i hlen hnone j hj
    have hi : i < s2.length := by simp at hlen; omega
    unfold fdbAux at hnone
    rw [if_pos hi] at hnone
    by_cases hd : c ≠ s2.getD i 0
    · rw [if_pos hd] at hnone; exact absurd hnone (by simp)
    · rw [if_neg hd] at hnone
      push_neg at hd
      match j with
      | 0 => simpa using hd
      | j' + 1 =>
        have := ih (i + 1) (by simp at hlen ⊢; omega) hnone j' (by simp at hj; omega)
        simpa [Nat.add_assoc, Nat.add_comm 1 j'] using this

lemma fdbAux_eq_some (s1 s2 : List Nat) :
    ∀ i m, m < s1.length → i + m < s2.length →
      (∀ j, j < m → s1.getD j 0 = s2.getD (i + j) 0) →
      s1.getD m 0 ≠ s2.getD (i + m) 0 →
      fdbAux s1 s2 i = some (i + m) := by
  induction s1 with
  | nil => intro i m hm; simp at hm
  | cons c rest ih =>
    intro i m hm hm2 hpre hdiff
    have hi : i < s2.length := by omega
    unfold fdbAux
    rw [if_pos hi]
    match m with
    | 0 =>
      rw [if_pos (by simpa using hdiff)]
      simp
    | m' + 1 =>
      have hc : c = s2.getD i 0 := by
        have := hpre 0 (by omega)
        simpa using this
      rw [if_neg (by simpa using hc)]
      have := ih (i + 1) m' (by simp at hm; omega) (by omega)
        (fun j hj => by
          have := hpre (j + 1) (by omega)
          simpa [Nat.add_assoc, Nat.add_comm 1 j] using this)
        (by
          have : (c :: rest).getD (m' + 1) 0 = rest.getD m' 0 := by simp
          rw [this] at hdiff
          simpa [Nat.add_assoc, Nat.add_comm 1 m'] using hdiff)
      rw [this]
      congr 1
      omega

lemma fdbAux_some_spec (s1 s2 : List Nat) :
    ∀ i m, fdbAux s1 s2 i = some m →
      i ≤ m ∧ m - i < s1.length ∧ m < s2.length ∧
      s1.getD (m - i) 0 ≠ s2.getD m 0 ∧
      ∀ j, j < m - i → s1.getD j 0 = s2.getD (i + j) 0 := by
  induction s1 with
  | nil => intro i m h; exact absurd h (by simp [fdbAux])
  | cons c rest ih =>
    intro i m h
    unfold fdbAux at h
    by_cases hi : i < s2.length
    · rw [if_pos hi] at h
      by_cases hd : c ≠ s2.getD i 0
      · rw [if_pos hd] at h
        have hm : m = i := by cases h; rfl
        subst hm
        refine ⟨le_refl _, by simp, hi, by simpa using hd, ?_⟩
        intro j hj; omega
      · rw [if_neg hd] at h
        push_neg at hd
        obtain ⟨h1, h2, h3, h4, h5⟩ := ih (i + 1) m h
        refine ⟨by omega, by simp; omega, h3, ?_, ?_⟩
        · have : (c :: rest).getD (m - i) 0 = rest.getD (m - (i + 1)) 0 := by
            have hsub : m - i = (m - (i + 1)) + 1 := by omega
            rw [hsub]; simp
          rw [this]; exact h4
        · intro j hj
          match j with
          | 0 => simpa using hd
          | j' + 1 =>
            have := h5 j' (by omega)
            simpa [Nat.add_assoc, Nat.add_comm 1 j'] using this
    · rw [if_neg hi] at h
      exact absurd h (by simp)

lemma first_different_byte_none_iff (s1 s2 : List Nat)
    (hlen : s1.length = s2.length) :
    first_different_byte s1 s2 = none ↔ s1 = s2 := by
  constructor
  · intro h
    have := fdbAux_none_eq s1 s2 0 (by omega) h
    apply List.ext_getElem hlen
    intro j hj1 hj2
    have hgd := this j hj1
    rwa [Nat.zero_add, List.getD_eq_getElem s1 0 hj1, List.getD_eq_getElem s2 0 hj2] at hgd
  · intro h
    subst h
    exact fdbAux_eq_none s1 s1 0 (fun j _ => by rw [Nat.zero_add]) (by omega)

lemma first_different_byte_some_spec (s1 s2 : List Nat) (m : Nat)
    (h : first_different_byte s1 s2 = some m) :
    m < s1.length ∧ m < s2.length ∧ s1.getD m 0 ≠ s2.getD m 0 ∧
      ∀ j, j < m → s1.getD j 0 = s2.getD j 0 := by
  obtain ⟨_, h2, h3, h4, h5⟩ := fdbAux_some_spec s1 s2 0 m h
  simp only [Nat.sub_zero] at h2 h4
  exact ⟨h2, h3, h4, fun j hj => by simpa using h5 j (by omega)⟩

lemma first_different_byte_eq_some (s1 s2 : List Nat) (m : Nat)
    (hm1 : m < s1.length) (hm2 : m < s2.length)
    (hpre : ∀ j, j < m → s1.getD j 0 = s2.getD j 0)
    (hdiff : s1.getD m 0 ≠ s2.getD m 0) :
    first_different_byte s1 s2 = some m := by
  have := fdbAux_eq_some s1 s2 0 m hm1 (by omega)
    (fun j hj => by simpa using hpre j hj) (by simpa using hdiff)
  simpa using this

/-! Termination of the bit-scan loop of `_first_different_bit`. -/

set_option maxRecDepth 40000 in
lemma fdbitLoop_exit_facts :
    ∀ x, x < 256 → 1 ≤ x →
      (x <<< fdbitLoop 8 x 0) >>> 7 ≠ 0 ∧
      (∀ j, j < fdbitLoop 8 x 0 → (x <<< j) >>> 7 = 0) ∧
      fdbitLoop 8 x 0 ≤ 7 := by decide

lemma fdbitLoop_run :
    ∀ (k fuel x i : Nat), k ≤ fuel →
      (∀ j, j < k → (x <<< j) >>> 7 = 0) →
      (x <<< k) >>> 7 ≠ 0 →
      fdbitLoop fuel x i = i + k := by
  intro k
  induction k with
  | zero =>
    intro fuel x i _ _ hexit
    have hx : ¬ x >>> (BITS_PER_BYTE - 1) = 0 := by
      have h7 : BITS_PER_BYTE - 1 = 7 := rfl
      rw [h7]
      simpa using hexit
    cases fuel with
    | zero => simp [fdbitLoop]
    | succ f =>
      unfold fdbitLoop
      rw [if_neg hx]
      omega
  | succ k ih =>
    intro fuel x i hfuel hpre hexit
    cases fuel with
    | zero => omega
    | succ f =>
      have h0 : x >>> (BITS_PER_BYTE - 1) = 0 := by
        have h7 : BITS_PER_BYTE - 1 = 7 := rfl
        rw [h7]
        simpa using hpre 0 (by omega)
      unfold fdbitLoop
      rw [if_pos h0]
      have hstep : ∀ j : Nat, (x <<< 1) <<< j = x <<< (1 + j) := by
        intro j; rw [Nat.shiftLeft_add]
      have := ih f (x <<< 1) (i + 1) (by omega)
        (fun j hj => by rw [hstep]; exact hpre (1 + j) (by omega))
        (by rw [hstep, Nat.add_comm 1 k]; exact hexit)
      rw [this]
      omega

lemma first_different_bit_fuel (x : Nat) (h256 : x < 256) (h1 : 1 ≤ x) :
    (∀ m, fdbitLoop (8 + m) x 0 = fdbitLoop 8 x 0) ∧ fdbitLoop 8 x 0 ≤ 7 := by
  obtain ⟨hexit, hpre, hle⟩ := fdbitLoop_exit_facts x h256 h1
  refine ⟨fun m => ?_, hle⟩
  rw [fdbitLoop_run (fdbitLoop 8 x 0) (8 + m) x 0 (by omega) hpre hexit,
      fdbitLoop_run (fdbitLoop 8 x 0) 8 x 0 (by omega) hpre hexit]
  omega

/-- C10: `log_distance` terminates.  When the two valid buffers are equal
the byte scan reports no difference and -1 is returned without touching
the bit helper; when it reports index `i`, the XOR of the bytes there is
non-zero, and the bit-scan loop on that byte stabilizes within the fuel
bound (its result never changes with more fuel and is at most 7, i.e. at
most 8 loop iterations). -/
theorem claim_C10_termination (a b : Id) (ha : Valid a) (hb : Valid b) :
    (first_different_byte a.bin_id b.bin_id = none → a.log_distance b = -1) ∧
    (∀ i, first_different_byte a.bin_id b.bin_id = some i →
      Nat.xor (a.bin_id.getD i 0) (b.bin_id.getD i 0) ≠ 0 ∧
      (∀ m, fdbitLoop (8 + m) (Nat.xor (a.bin_id.getD i 0) (b.bin_id.getD i 0)) 0 =
        first_different_bit (a.bin_id.getD i 0) (b.bin_id.getD i 0)) ∧
      first_different_bit (a.bin_id.getD i 0) (b.bin_id.getD i 0) ≤ 7) := by
  constructor
  · intro h
    unfold Id.log_distance
    rw [h]
  · intro i hsome
    obtain ⟨hi1, hi2, hdiff, _⟩ := first_different_byte_some_spec _ _ _ hsome
    have hxne : Nat.xor (a.bin_id.getD i 0) (b.bin_id.getD i 0) ≠ 0 := by
      intro hx
      exact hdiff (Nat.xor_eq_zero.mp hx)
    have hma : a.bin_id.getD i 0 ∈ a.bin_id := by
      rw [List.getD_eq_getElem a.bin_id 0 hi1]
      exact List.getElem_mem hi1
    have hmb : b.bin_id.getD i 0 ∈ b.bin_id := by
      rw [List.getD_eq_getElem b.bin_id 0 hi2]
      exact List.getElem_mem hi2
    have hxlt : Nat.xor (a.bin_id.getD i 0) (b.bin_id.getD i 0) < 256 := by
      have h8 : (256 : Nat) = 2 ^ 8 := by norm_num
      rw [h8]
      exact Nat.xor_lt_two_pow (h8 ▸ ha.2 _ hma) (h8 ▸ hb.2 _ hmb)
    obtain ⟨hfuel, hle⟩ := first_different_bit_fuel _ hxlt (by omega)
    exact ⟨hxne, hfuel, hle⟩

/-- Witness for C10 at the concrete valid pair `zId`, `oneId`. -/
theorem claim_C10_termination_witness :
    (first_different_byte zId.bin_id oneId.bin_id = none → zId.log_distance oneId = -1) ∧
    (∀ i, first_different_byte zId.bin_id oneId.bin_id = some i →
      Nat.xor (zId.bin_id.getD i 0) (oneId.bin_id.getD i 0) ≠ 0 ∧
      (∀ m, fdbitLoop (8 + m) (Nat.xor (zId.bin_id.getD i 0) (oneId.bin_id.getD i 0)) 0 =
        first_different_bit (zId.bin_id.getD i 0) (oneId.bin_id.getD i 0)) ∧
      first_different_bit (zId.bin_id.getD i 0) (oneId.bin_id.getD i 0) ≤ 7) :=
  claim_C10_termination zId oneId (by decide) (by decide)

/-! Big-endian values of byte strings, and the log-distance bracket. -/

lemma beVal_foldl (l : List Nat) :
    ∀ init : Nat, l.foldl (fun acc b => acc * 256 + b) init =
      init * 256 ^ l.length + beVal l := by
  induction l with
  | nil => intro init; simp [beVal]
  | cons b t ih =>
    intro init
    show t.foldl _ (init * 256 + b) = _
    rw [ih (init * 256 + b)]
    have hb : beVal (b :: t) = t.foldl (fun acc c => acc * 256 + c) (0 * 256 + b) := rfl
    rw [hb, ih (0 * 256 + b)]
    simp [List.length_cons, pow_succ]
    ring

lemma beVal_cons (b : Nat) (t : List Nat) :
    beVal (b :: t) = b * 256 ^ t.length + beVal t := by
  have : beVal (b :: t) = t.foldl (fun acc c => acc * 256 + c) (0 * 256 + b) := rfl
  rw [this, beVal_foldl]
  ring_nf

lemma beVal_append (l1 l2 : List Nat) :
    beVal (l1 ++ l2) = beVal l1 * 256 ^ l2.length + beVal l2 := by
  unfold beVal
  rw [List.foldl_append]
  exact beVal_foldl l2 _

lemma beVal_replicate_zero (k : Nat) : beVal (List.replicate k 0) = 0 := by
  induction k with
  | zero => rfl
  | succ m ih =>
    rw [List.replicate_succ, beVal_cons, ih]
    simp

lemma beVal_lt (l : List Nat) (h : ∀ b ∈ l, b < 256) :
    beVal l < 256 ^ l.length := by
  induction l with
  | nil => simp [beVal]
  | cons b t ih =>
    rw [beVal_cons]
    have hb : b < 256 := h b (by simp)
    have ht : beVal t < 256 ^ t.length := ih (fun c hc => h c (by simp [hc]))
    have : b * 256 ^ t.length + beVal t < (b + 1) * 256 ^ t.length := by
      calc b * 256 ^ t.length + beVal t < b * 256 ^ t.length + 256 ^ t.length := by omega
        _ = (b + 1) * 256 ^ t.length := by ring
    calc b * 256 ^ t.length + beVal t < (b + 1) * 256 ^ t.length := this
      _ ≤ 256 * 256 ^ t.length := Nat.mul_le_mul_right _ (by omega)
      _ = 256 ^ (t.length + 1) := by rw [pow_succ]; ring
      _ = 256 ^ (b :: t).length := by simp

lemma zipWith_xor_self (l : List Nat) :
    List.zipWith (fun u v => Nat.xor u v) l l = List.replicate l.length 0 := by
  induction l with
  | nil => rfl
  | cons b t ih =>
    show Nat.xor b b :: List.zipWith _ t t = _
    have hxx : Nat.xor b b = 0 := Nat.xor_self b
    rw [hxx, ih, List.length_cons, List.replicate_succ]

lemma zipWith_xor_bytes_lt :
    ∀ (l1 l2 : List Nat), (∀ u ∈ l1, u < 256) → (∀ v ∈ l2, v < 256) →
      ∀ c ∈ List.zipWith (fun u v => Nat.xor u v) l1 l2, c < 256 := by
  intro l1
  induction l1 with
  | nil => intro l2 _ _ c hc; simp at hc
  | cons u t ih =>
    intro l2 h1 h2 c hc
    cases l2 with
    | nil => simp at hc
    | cons v t2 =>
      simp only [List.zipWith_cons_cons, List.mem_cons] at hc
      rcases hc with hc | hc
      · subst hc
        have h8 : (256 : Nat) = 2 ^ 8 := by norm_num
        rw [h8]
        exact Nat.xor_lt_two_pow (h8 ▸ h1 u (by simp)) (h8 ▸ h2 v (by simp))
      · exact ih t2 (fun w hw => h1 w (by simp [hw])) (fun w hw => h2 w (by simp [hw])) c hc

set_option maxRecDepth 40000 in
lemma fdbit_clz_bracket :
    ∀ x, x < 256 → 1 ≤ x →
      2 ^ (7 - fdbitLoop 8 x 0) ≤ x ∧ x < 2 ^ (8 - fdbitLoop 8 x 0) := by decide

/-- C4: for valid identifiers, `log_distance` returns -1 exactly when the
buffers are equal; otherwise it returns the `n ≤ 159` with
`2^n ≤ xor-distance < 2^(n+1)` (in particular 0 for a difference only in
the least significant bit and 159 for one in the top bit of the first
byte). -/
theorem claim_C4_log_distance (a b : Id) (ha : Valid a) (hb : Valid b) :
    (a.log_distance b = -1 ↔ a.bin_id = b.bin_id) ∧
    (a.bin_id ≠ b.bin_id →
      ∃ n : Nat, a.log_distance b = (n : Int) ∧ n ≤ 159 ∧
        2 ^ n ≤ xorDistanceVal a b ∧ xorDistanceVal a b < 2 ^ (n + 1)) := by
  have hlen : a.bin_id.length = b.bin_id.length := by rw [ha.1, hb.1]
  cases h : first_different_byte a.bin_id b.bin_id with
  | none =>
    have heq : a.bin_id = b.bin_id := (first_different_byte_none_iff _ _ hlen).mp h
    have hlog : a.log_distance b = -1 := by
      unfold Id.log_distance
      rw [h]
    exact ⟨by simp [hlog, heq], fun hne => absurd heq hne⟩
  | some i =>
    obtain ⟨hi1, hi2, hdiff, hpre⟩ := first_different_byte_some_spec _ _ _ h
    have hi20 : i < 20 := by rw [ha.1] at hi1; exact hi1
    set b1 := a.bin_id.getD i 0 with hb1
    set b2 := b.bin_id.getD i 0 with hb2
    set x := Nat.xor b1 b2 with hx
    set k := first_different_bit b1 b2 with hk
    have hx1 : 1 ≤ x := by
      rcases Nat.eq_zero_or_pos x with h0 | h0
      · exact absurd (Nat.xor_eq_zero.mp h0) hdiff
      · exact h0
    have hx256 : x < 256 := by
      have h8 : (256 : Nat) = 2 ^ 8 := by norm_num
      rw [h8]
      have hma : b1 ∈ a.bin_id := by
        rw [hb1, List.getD_eq_getElem a.bin_id 0 hi1]
        exact List.getElem_mem hi1
      have hmb : b2 ∈ b.bin_id := by
        rw [hb2, List.getD_eq_getElem b.bin_id 0 hi2]
        exact List.getElem_mem hi2
      exact Nat.xor_lt_two_pow (h8 ▸ ha.2 _ hma) (h8 ▸ hb.2 _ hmb)
    have hk7 : k ≤ 7 := (fdbitLoop_exit_facts x hx256 hx1).2.2
    have hbracket := fdbit_clz_bracket x hx256 hx1
    rw [show fdbitLoop 8 x 0 = k from rfl] at hbracket
    have hne : a.bin_id ≠ b.bin_id := by
      intro heq
      exact hdiff (by rw [hb1, hb2, heq])
    set n : Nat := (19 - i) * 8 + (7 - k) with hn
    have hval : a.log_distance b = (n : Int) := by
      unfold Id.log_distance
      rw [h]
      show ((ID_SIZE_BYTES : Int) - i - 1) * (BITS_PER_BYTE : Int) +
        ((BITS_PER_BYTE : Int) - (first_different_bit b1 b2) - 1) = (n : Int)
      have h20 : (ID_SIZE_BYTES : Int) = 20 := rfl
      have h8 : (BITS_PER_BYTE : Int) = 8 := rfl
      rw [h20, h8, ← hk, hn]
      push_cast
      omega
    constructor
    · constructor
      · intro hlog
        rw [hval] at hlog
        omega
      · intro heq
        exact absurd heq hne
    · intro _
      have hs : a.bin_id = a.bin_id.take i ++ b1 :: a.bin_id.drop (i + 1) := by
        conv_lhs => rw [← List.take_append_drop i a.bin_id]
        congr 1
        rw [List.drop_eq_getElem_cons hi1, hb1, List.getD_eq_getElem a.bin_id 0 hi1]
      have ht : b.bin_id = b.bin_id.take i ++ b2 :: b.bin_id.drop (i + 1) := by
        conv_lhs => rw [← List.take_append_drop i b.bin_id]
        congr 1
        rw [List.drop_eq_getElem_cons hi2, hb2, List.getD_eq_getElem b.bin_id 0 hi2]
      have htake : a.bin_id.take i = b.bin_id.take i := by
        apply List.ext_getElem (by simp [hlen])
        intro j hj1 hj2
        have hji : j < i := by
          have := (List.length_take i a.bin_id) ▸ hj1
          omega
        simp only [List.getElem_take]
        rw [← List.getD_eq_getElem a.bin_id 0 (show j < a.bin_id.length by omega),
            ← List.getD_eq_getElem b.bin_id 0 (show j < b.bin_id.length by omega)]
        exact hpre j hji
      have hzip : List.zipWith (fun u v => Nat.xor u v) a.bin_id b.bin_id =
          List.replicate i 0 ++ x ::
            List.zipWith (fun u v => Nat.xor u v) (a.bin_id.drop (i + 1)) (b.bin_id.drop (i + 1)) := by
        conv_lhs => rw [hs, ht]
        rw [List.zipWith_append _ _ _ _ _ (by simp [hlen])]
        congr 1
        rw [htake, zipWith_xor_self, List.length_take]
        congr 1
        rw [hlen] at hi1
        omega
      set rest := List.zipWith (fun u v => Nat.xor u v) (a.bin_id.drop (i + 1)) (b.bin_id.drop (i + 1)) with hrest
      have hrlen : rest.length = 19 - i := by
        rw [hrest, List.length_zipWith, List.length_drop, List.length_drop, ha.1, hb.1]
        show min (20 - (i + 1)) (20 - (i + 1)) = 19 - i
        omega
      have hrlt : beVal rest < 256 ^ (19 - i) := by
        rw [← hrlen]
        apply beVal_lt
        intro c hc
        exact zipWith_xor_bytes_lt _ _
          (fun u hu => ha.2 u (List.mem_of_mem_drop hu))
          (fun v hv => hb.2 v (List.mem_of_mem_drop hv)) c hc
      have hX : xorDistanceVal a b = x * 256 ^ (19 - i) + beVal rest := by
        unfold xorDistanceVal
        rw [hzip, beVal_append, beVal_replicate_zero, beVal_cons, hrlen]
        ring
      have hKpow : (256 : Nat) ^ (19 - i) = 2 ^ ((19 - i) * 8) := by
        rw [show (256 : Nat) = 2 ^ 8 by norm_num, ← pow_mul, Nat.mul_comm]
      refine ⟨n, hval, by omega, ?_, ?_⟩
      · calc 2 ^ n = 2 ^ ((19 - i) * 8) * 2 ^ (7 - k) := by rw [hn, pow_add]
          _ = 2 ^ (7 - k) * 256 ^ (19 - i) := by rw [hKpow]; ring
          _ ≤ x * 256 ^ (19 - i) := Nat.mul_le_mul_right _ hbracket.1
          _ ≤ xorDistanceVal a b := by rw [hX]; omega
      · have hexp : (8 - k) + (19 - i) * 8 = n + 1 := by
          rw [hn]; omega
        calc xorDistanceVal a b = x * 256 ^ (19 - i) + beVal rest := hX
          _ < (x + 1) * 256 ^ (19 - i) := by
              calc x * 256 ^ (19 - i) + beVal rest < x * 256 ^ (19 - i) + 256 ^ (19 - i) := by omega
                _ = (x + 1) * 256 ^ (19 - i) := by ring
          _ ≤ 2 ^ (8 - k) * 256 ^ (19 - i) := Nat.mul_le_mul_right _ (by omega)
          _ = 2 ^ ((8 - k) + (19 - i) * 8) := by rw [pow_add, hKpow]
          _ = 2 ^ (n + 1) := by rw [hexp]

/-- Witness for C4 at the concrete valid pair `zId`, `oneId` (which
differ only in the least significant bit). -/
theorem claim_C4_log_distance_witness :
    (zId.log_distance oneId = -1 ↔ zId.bin_id = oneId.bin_id) ∧
    (zId.bin_id ≠ oneId.bin_id →
      ∃ n : Nat, zId.log_distance oneId = (n : Int) ∧ n ≤ 159 ∧
        2 ^ n ≤ xorDistanceVal zId oneId ∧ xorDistanceVal zId oneId < 2 ^ (n + 1)) :=
  claim_C4_log_distance zId oneId (by decide) (by decide)

/-! Targeted generation: `generate_close_id`. -/

lemma nxor_assoc (a b c : Nat) :
    Nat.xor (Nat.xor a b) c = Nat.xor a (Nat.xor b c) := Nat.xor_assoc a b c

lemma nxor_self (a : Nat) : Nat.xor a a = 0 := Nat.xor_self a

lemma nxor_zero_left (a : Nat) : Nat.xor 0 a = a := Nat.zero_xor a

lemma xor_shiftRight (a b k : Nat) :
    (Nat.xor a b) >>> k = Nat.xor (a >>> k) (b >>> k) := by
  apply Nat.eq_of_testBit_eq
  intro i
  have hx : ∀ u v : Nat, Nat.xor u v = u ^^^ v := fun _ _ => rfl
  simp [hx, Nat.testBit_shiftRight, Nat.testBit_xor]

set_option maxRecDepth 40000 in
lemma randomize_step_facts :
    ∀ y, y < 256 → ∀ k, k < 8 → ∀ v, v ≤ 1 →
      ((y &&& (255 - (1 <<< k))) + (v <<< k)) < 256 ∧
      ((y &&& (255 - (1 <<< k))) + (v <<< k)) / 2 ^ (k + 1) = y / 2 ^ (k + 1) := by decide

lemma randomizeLowBits_facts (f : Nat → Nat) (hf : ∀ i, f i ≤ 1) :
    ∀ k, k ≤ 8 → ∀ b, b < 256 →
      randomizeLowBits k b f < 256 ∧ randomizeLowBits k b f / 2 ^ k = b / 2 ^ k := by
  intro k
  induction k with
  | zero =>
    intro _ b hb
    exact ⟨by simpa [randomizeLowBits] using hb, by simp [randomizeLowBits]⟩
  | succ k ih =>
    intro hk b hb
    have hstep : randomizeLowBits (k + 1) b f =
        ((randomizeLowBits k b f) &&& (255 - (1 <<< k))) + (f k <<< k) := by
      unfold randomizeLowBits
      rw [List.range_succ, List.foldl_append]
      rfl
    obtain ⟨h1, h2⟩ := ih (by omega) b hb
    obtain ⟨h3, h4⟩ := randomize_step_facts _ h1 k (by omega) (f k) (hf k)
    refine ⟨by rw [hstep]; exact h3, ?_⟩
    rw [hstep, h4, pow_succ, ← Nat.div_div_eq_div_mul, ← Nat.div_div_eq_div_mul, h2]

set_option maxRecDepth 40000 in
lemma fdbit_clz_at :
    ∀ k, k < 8 → ∀ x, x < 256 → 2 ^ k ≤ x → x < 2 ^ (k + 1) →
      fdbitLoop 8 x 0 = 7 - k := by decide

lemma generate_close_id_eq (self : Id) (d : Int) (rb rB : Nat → Nat)
    (h0 : 0 ≤ d) (h160 : d < 160) :
    self.generate_close_id d rb rB =
      Id.make (.str (self.bin_id.take (self.bin_id.length - d.toNat / 8 - 1) ++
        randomizeLowBits (d.toNat % 8)
          (Nat.xor (self.bin_id.getD (self.bin_id.length - d.toNat / 8 - 1) 0)
            (1 <<< (d.toNat % 8))) rb ::
        (List.range' ((self.bin_id.length - d.toNat / 8 - 1) + 1)
          (20 - ((self.bin_id.length - d.toNat / 8 - 1) + 1))).map rB)) := by
  unfold Id.generate_close_id
  have hbits : (ID_SIZE_BITS : Int) = 160 := rfl
  rw [if_neg (not_not_intro (show d < (ID_SIZE_BITS : Int) by omega)),
      if_neg (show ¬ d < 0 by omega)]
  rfl

/-- C5: for every valid identifier, every target `0 ≤ d < 160` and every
sequence of in-range random draws, `generate_close_id` succeeds and the
result has log-distance exactly `d` to `self`; for the sentinel target
-1 the result is `self` itself. -/
theorem claim_C5_generate (self : Id) (d : Int) (rb rB : Nat → Nat)
    (hv : Valid self) (hbits : ∀ i, rb i ≤ 1) (hbytes : ∀ i, rB i ≤ 255) :
    (0 ≤ d → d < 160 →
      ∃ r, self.generate_close_id d rb rB = .ok r ∧ self.log_distance r = d) ∧
    self.generate_close_id (-1) rb rB = .ok self := by
  constructor
  · intro h0 h160
    rw [generate_close_id_eq self d rb rB h0 h160]
    have hlen20 : self.bin_id.length = 20 := hv.1
    set dn := d.toNat with hdn_def
    have hdnd : (dn : Int) = d := Int.toNat_of_nonneg h0
    have hdn159 : dn ≤ 159 := by omega
    set bn := dn / 8 with hbn_def
    set bitn := dn % 8 with hbitn_def
    have hbn19 : bn ≤ 19 := by omega
    have hbitn8 : bitn < 8 := Nat.mod_lt _ (by omega)
    have hdm : bn * 8 + bitn = dn := by
      rw [hbn_def, hbitn_def]
      omega
    set bi := self.bin_id.length - bn - 1 with hbi_def
    have hbi19 : bi = 19 - bn := by omega
    have hbi_lt : bi < 20 := by omega
    set b0 := self.bin_id.getD bi 0 with hb0_def
    have hb0m : b0 ∈ self.bin_id := by
      rw [hb0_def, List.getD_eq_getElem self.bin_id 0 (by omega)]
      exact List.getElem_mem (by omega)
    have hb0lt : b0 < 256 := hv.2 _ hb0m
    have hpow : (1 <<< bitn) = 2 ^ bitn := Nat.one_shiftLeft _
    have h2bitn : (2 : Nat) ^ bitn < 256 := by
      calc (2 : Nat) ^ bitn < 2 ^ 8 := Nat.pow_lt_pow_right (by omega) (by omega)
        _ = 256 := by norm_num
    have hib0lt : Nat.xor b0 (1 <<< bitn) < 256 := by
      have h8 : (256 : Nat) = 2 ^ 8 := by norm_num
      rw [h8]
      exact Nat.xor_lt_two_pow (h8 ▸ hb0lt) (h8 ▸ (hpow ▸ h2bitn))
    set ib := randomizeLowBits bitn (Nat.xor b0 (1 <<< bitn)) rb with hib_def
    obtain ⟨hiblt, hibdiv⟩ :=
      randomizeLowBits_facts rb hbits bitn (by omega) _ hib0lt
    set x := Nat.xor b0 ib with hx_def
    have hxk : x >>> bitn = 1 := by
      rw [hx_def, xor_shiftRight]
      have hib_shift : ib >>> bitn = (Nat.xor b0 (1 <<< bitn)) >>> bitn := by
        rw [Nat.shiftRight_eq_div_pow, Nat.shiftRight_eq_div_pow, hib_def, hibdiv]
      rw [hib_shift, xor_shiftRight]
      have hps : (1 <<< bitn) >>> bitn = 1 := by
        rw [hpow, Nat.shiftRight_eq_div_pow]
        exact Nat.div_self (Nat.pos_pow_of_pos _ (by omega))
      rw [hps, ← nxor_assoc, nxor_self, nxor_zero_left]
    have hxdiv : x / 2 ^ bitn = 1 := by
      rw [← Nat.shiftRight_eq_div_pow]
      exact hxk
    have hKpos : 0 < (2 : Nat) ^ bitn := Nat.pos_pow_of_pos _ (by omega)
    have hdmx := Nat.div_add_mod x (2 ^ bitn)
    have hmodx : x % 2 ^ bitn < 2 ^ bitn := Nat.mod_lt _ hKpos
    have hxlow : 2 ^ bitn ≤ x := by
      rw [hxdiv] at hdmx
      omega
    have hxhigh : x < 2 ^ (bitn + 1) := by
      rw [hxdiv] at hdmx
      rw [pow_succ]
      omega
    have hx256 : x < 256 := by
      calc x < 2 ^ (bitn + 1) := hxhigh
        _ ≤ 2 ^ 8 := Nat.pow_le_pow_right (by omega) (by omega)
        _ = 256 := by norm_num
    have hbneq : b0 ≠ ib := by
      intro heq
      have : x = 0 := by rw [hx_def, heq, nxor_self]
      omega
    set ebs := (List.range' (bi + 1) (20 - (bi + 1))).map rB with hebs_def
    have hebs_len : ebs.length = bn := by
      rw [hebs_def, List.length_map, List.length_range']
      omega
    set newbin := self.bin_id.take bi ++ ib :: ebs with hnew_def
    have htake_len : (self.bin_id.take bi).length = bi := by
      rw [List.length_take]
      omega
    have hnew_len : newbin.length = 20 := by
      rw [hnew_def, List.length_append, htake_len, List.length_cons, hebs_len]
      omega
    have hmk : Id.make (.str newbin) = .ok ⟨newbin, none, none⟩ := by
      simp only [Id.make]
      rw [if_pos (show newbin.length = ID_SIZE_BYTES from hnew_len)]
    refine ⟨⟨newbin, none, none⟩, ?_, ?_⟩
    · exact hmk
    · show Id.log_distance self ⟨newbin, none, none⟩ = d
      have hpre : ∀ j, j < bi →
          self.bin_id.getD j 0 = newbin.getD j 0 := by
        intro j hj
        rw [hnew_def, List.getD_append _ _ _ _ (by rw [htake_len]; omega)]
        rw [List.getD_eq_getElem (self.bin_id.take bi) 0 (by rw [htake_len]; omega),
            List.getD_eq_getElem self.bin_id 0 (by omega)]
        simp [List.getElem_take]
      have hat : newbin.getD bi 0 = ib := by
        rw [hnew_def, List.getD_append_right _ _ _ _ (by rw [htake_len])]
        rw [htake_len, Nat.sub_self]
        rfl
      have hfdb : first_different_byte self.bin_id newbin = some bi := by
        apply first_different_byte_eq_some _ _ bi (by omega) (by omega) hpre
        rw [hat, ← hb0_def]
        exact hbneq
      unfold Id.log_distance
      rw [hfdb]
      show ((ID_SIZE_BYTES : Int) - bi - 1) * (BITS_PER_BYTE : Int) +
        ((BITS_PER_BYTE : Int) -
          (first_different_bit (self.bin_id.getD bi 0) (newbin.getD bi 0)) - 1) = d
      rw [hat, ← hb0_def]
      have hK : first_different_bit b0 ib = 7 - bitn := by
        show fdbitLoop 8 (Nat.xor b0 ib) 0 = 7 - bitn
        rw [← hx_def]
        exact fdbit_clz_at bitn hbitn8 x hx256 hxlow hxhigh
      rw [hK]
      have h20 : (ID_SIZE_BYTES : Int) = 20 := rfl
      have h8 : (BITS_PER_BYTE : Int) = 8 := rfl
      rw [h20, h8]
      omega
  · unfold Id.generate_close_id
    rw [if_neg (not_not_intro (show (-1 : Int) < (ID_SIZE_BITS : Int) by decide)),
        if_pos (show (-1 : Int) < 0 by decide)]

/-- Witness for C5 at the all-zero identifier, target distance 0, and the
all-zero draw streams. -/
theorem claim_C5_generate_witness :
    (∃ r, zId.generate_close_id 0 (fun _ => 0) (fun _ => 0) = .ok r ∧
      zId.log_distance r = 0) ∧
    zId.generate_close_id (-1) (fun _ => 0) (fun _ => 0) = .ok zId :=
  ⟨(claim_C5_generate zId 0 (fun _ => 0) (fun _ => 0) (by decide)
      (fun _ => Nat.zero_le _) (fun _ => Nat.zero_le _)).1 (by decide) (by decide),
   (claim_C5_generate zId 0 (fun _ => 0) (fun _ => 0) (by decide)
      (fun _ => Nat.zero_le _) (fun _ => Nat.zero_le _)).2⟩

/-! Closeness ordering: `order_closest` is a stable selection sort. -/

lemma selLoop_no_update :
    ∀ (keys : List Int) (low : Int) (li : Option Nat) (j0 : Nat),
      (∀ k ∈ keys, ¬ k < low) → selLoop keys low li j0 = li := by
  intro keys
  induction keys with
  | nil => intro low li j0 _; rfl
  | cons k ks ih =>
    intro low li j0 h
    unfold selLoop
    rw [if_neg (h k (by simp))]
    exact ih low li (j0 + 1) (fun k' hk' => h k' (by simp [hk']))

lemma selLoop_finds :
    ∀ (keys : List Int) (low : Int) (li : Option Nat) (j0 : Nat),
      (∃ k ∈ keys, k < low) →
      ∃ i, selLoop keys low li j0 = some (j0 + i) ∧ i < keys.length ∧
        keys.getD i 0 < low ∧
        (∀ j, j < keys.length → keys.getD i 0 ≤ keys.getD j 0) ∧
        (∀ j, j < i → keys.getD i 0 < keys.getD j 0) := by
  intro keys
  induction keys with
  | nil => intro low li j0 h; simp at h
  | cons k ks ih =>
    intro low li j0 hex
    unfold selLoop
    by_cases hk : k < low
    · rw [if_pos hk]
      by_cases hks : ∃ k' ∈ ks, k' < k
      · obtain ⟨i', hsel, hlen, hlt, hall, hstr⟩ := ih k (some j0) (j0 + 1) hks
        refine ⟨i' + 1, ?_, by simp; omega, by simpa using hlt.trans hk, ?_, ?_⟩
        · rw [hsel]
          congr 1
          omega
        · intro j hj
          match j with
          | 0 =>
            simp only [List.getD_cons_succ, List.getD_cons_zero]
            omega
          | j' + 1 =>
            simp only [List.getD_cons_succ]
            exact hall j' (by simp at hj; omega)
        · intro j hj
          match j with
          | 0 =>
            simp only [List.getD_cons_succ, List.getD_cons_zero]
            omega
          | j' + 1 =>
            simp only [List.getD_cons_succ]
            exact hstr j' (by omega)
      · push_neg at hks
        rw [selLoop_no_update ks k (some j0) (j0 + 1) (fun k' hk' => not_lt.mpr (hks k' hk'))]
        refine ⟨0, by rw [Nat.add_zero], by simp, by simpa using hk, ?_, by omega⟩
        intro j hj
        match j with
        | 0 => simp
        | j' + 1 =>
          simp only [List.getD_cons_succ, List.getD_cons_zero]
          have hmem : ks.getD j' 0 ∈ ks := by
            rw [List.getD_eq_getElem ks 0 (by simp at hj; omega)]
            exact List.getElem_mem _
          exact hks _ hmem
    · rw [if_neg hk]
      have hex' : ∃ k' ∈ ks, k' < low := by
        obtain ⟨k', hk', hlt⟩ := hex
        rcases List.mem_cons.mp hk' with rfl | hmem
        · exact absurd hlt hk
        · exact ⟨k', hmem, hlt⟩
      obtain ⟨i', hsel, hlen, hlt, hall, hstr⟩ := ih low li (j0 + 1) hex'
      have hlk : low ≤ k := not_lt.mp hk
      refine ⟨i' + 1, ?_, by simp; omega, by simpa using hlt, ?_, ?_⟩
      · rw [hsel]
        congr 1
        omega
      · intro j hj
        match j with
        | 0 =>
          simp only [List.getD_cons_succ, List.getD_cons_zero]
          omega
        | j' + 1 =>
          simp only [List.getD_cons_succ]
          exact hall j' (by simp at hj; omega)
      · intro j hj
        match j with
        | 0 =>
          simp only [List.getD_cons_succ, List.getD_cons_zero]
          omega
        | j' + 1 =>
          simp only [List.getD_cons_succ]
          exact hstr j' (by omega)

lemma selLoop_some_range :
    ∀ (keys : List Int) (low : Int) (li : Option Nat) (j0 m : Nat),
      selLoop keys low li j0 = some m →
      some m = li ∨ (j0 ≤ m ∧ m < j0 + keys.length) := by
  intro keys
  induction keys with
  | nil => intro low li j0 m h; exact Or.inl h.symm
  | cons k ks ih =>
    intro low li j0 m h
    unfold selLoop at h
    by_cases hk : k < low
    · rw [if_pos hk] at h
      rcases ih k (some j0) (j0 + 1) m h with heq | hrange
      · right
        have : m = j0 := (Option.some.injEq _ _ ▸ heq : m = j0)
        simp
        omega
      · right
        simp
        omega
    · rw [if_neg hk] at h
      rcases ih low li (j0 + 1) m h with heq | hrange
      · exact Or.inl heq
      · right
        simp
        omega

lemma lowestIndex_some_lt (keys : List Int) (i : Nat)
    (h : lowestIndex keys = some i) : i < keys.length := by
  rcases selLoop_some_range keys _ none 0 i h with heq | hr
  · exact absurd heq (by simp)
  · omega

lemma log_distance_lt (self e : Id) :
    self.log_distance e < (ID_SIZE_BITS : Int) + 1 := by
  have hb : (ID_SIZE_BITS : Int) = 160 := rfl
  unfold Id.log_distance
  cases h : first_different_byte self.bin_id e.bin_id with
  | none =>
    show (-1 : Int) < (ID_SIZE_BITS : Int) + 1
    rw [hb]
    omega
  | some i =>
    show ((ID_SIZE_BYTES : Int) - i - 1) * (BITS_PER_BYTE : Int) +
      ((BITS_PER_BYTE : Int) -
        (first_different_bit (self.bin_id.getD i 0) (e.bin_id.getD i 0)) - 1) <
      (ID_SIZE_BITS : Int) + 1
    have h20 : (ID_SIZE_BYTES : Int) = 20 := rfl
    have h8 : (BITS_PER_BYTE : Int) = 8 := rfl
    rw [h20, h8, hb]
    omega

lemma eraseIdx_map {α β : Type} (f : α → β) :
    ∀ (xs : List α) (i : Nat), (xs.map f).eraseIdx i = (xs.eraseIdx i).map f := by
  intro xs
  induction xs with
  | nil => intro i; rfl
  | cons a t ih =>
    intro i
    match i with
    | 0 => rfl
    | n + 1 =>
      show f a :: (t.map f).eraseIdx n = f a :: (t.eraseIdx n).map f
      rw [ih n]

lemma mem_eraseIdx_getD {α : Type} [Inhabited α] (xs : List α) (i : Nat)
    (hi : i < xs.length) (y : α) (hy : y ∈ xs.eraseIdx i) :
    ∃ j, j < xs.length ∧ j ≠ i ∧ xs.getD j default = y := by
  rw [List.eraseIdx_eq_take_drop_succ] at hy
  rcases List.mem_append.mp hy with h | h
  · obtain ⟨j, hj, hjy⟩ := List.getElem_of_mem h
    have hji : j < i := by
      have := hj
      rw [List.length_take] at this
      omega
    refine ⟨j, by omega, by omega, ?_⟩
    rw [List.getD_eq_getElem xs default (by omega)]
    rw [← hjy]
    simp [List.getElem_take]
  · obtain ⟨j, hj, hjy⟩ := List.getElem_of_mem h
    have hjd : j < xs.length - (i + 1) := by
      have := hj
      rw [List.length_drop] at this
      omega
    refine ⟨i + 1 + j, by omega, by omega, ?_⟩
    rw [List.getD_eq_getElem xs default (by omega), ← hjy]
    rw [List.getElem_drop]

lemma perm_getD_cons_eraseIdx {α : Type} [Inhabited α] (xs : List α) (i : Nat)
    (hi : i < xs.length) :
    xs.Perm (xs.getD i default :: xs.eraseIdx i) := by
  have hxs : xs = xs.take i ++ xs.getD i default :: xs.drop (i + 1) := by
    conv_lhs => rw [← List.take_append_drop i xs]
    congr 1
    rw [List.drop_eq_getElem_cons hi, List.getD_eq_getElem xs default hi]
  have hp := @List.perm_middle _ (xs.getD i default) (xs.take i) (xs.drop (i + 1))
  rw [← hxs] at hp
  rw [List.eraseIdx_eq_take_drop_succ]
  exact hp

lemma orderAux_spec {α : Type} [Inhabited α] (g : α → Int) (h : α → Nat)
    (hg : ∀ a, g a < (ID_SIZE_BITS : Int) + 1) :
    ∀ (N : Nat) (xs : List α), xs.length = N →
      List.Pairwise (fun a b => h a < h b) xs →
      (orderAux N (xs.map g) xs).Perm xs ∧
      List.Pairwise (fun a b => g a < g b ∨ (g a = g b ∧ h a < h b))
        (orderAux N (xs.map g) xs) := by
  intro N
  induction N with
  | zero =>
    intro xs hlen _
    rw [List.length_eq_zero] at hlen
    subst hlen
    exact ⟨List.Perm.refl _, List.Pairwise.nil⟩
  | succ N ih =>
    intro xs hlen hpw
    have hpos : 0 < xs.length := by omega
    obtain ⟨a0, ha0⟩ := List.exists_mem_of_length_pos hpos
    have hex : ∃ k ∈ xs.map g, k < (ID_SIZE_BITS : Int) + 1 :=
      ⟨g a0, List.mem_map_of_mem _ ha0, hg a0⟩
    obtain ⟨i, hsel, hilt, hlow, hall, hstrict⟩ :=
      selLoop_finds (xs.map g) ((ID_SIZE_BITS : Int) + 1) none 0 hex
    have hli : lowestIndex (xs.map g) = some i := by
      unfold lowestIndex
      rw [hsel]
      congr 1
      omega
    have hilen : i < xs.length := by simpa using hilt
    have hstep : orderAux (N + 1) (xs.map g) xs =
        xs.getD i default :: orderAux N ((xs.map g).eraseIdx i) (xs.eraseIdx i) := by
      conv_lhs => unfold orderAux
      rw [hli]
    have hkey : ∀ j, j < xs.length → (xs.map g).getD j 0 = g (xs.getD j default) := by
      intro j hj
      rw [List.getD_eq_getElem (xs.map g) 0 (by simpa using hj), List.getElem_map,
          List.getD_eq_getElem xs default hj]
    rw [hstep, eraseIdx_map g xs i]
    have herlen : (xs.eraseIdx i).length = N := by
      rw [List.length_eraseIdx_of_lt hilen]
      omega
    have hpw' := List.Pairwise.sublist (List.eraseIdx_sublist xs i) hpw
    obtain ⟨hperm', hpw2⟩ := ih (xs.eraseIdx i) herlen hpw'
    have hmidperm := perm_getD_cons_eraseIdx xs i hilen
    constructor
    · exact (hperm'.cons (xs.getD i default)).trans hmidperm.symm
    · rw [List.pairwise_cons]
      refine ⟨?_, hpw2⟩
      intro y hy
      have hy' : y ∈ xs.eraseIdx i := hperm'.mem_iff.mp hy
      obtain ⟨j, hjlen, hjne, hjy⟩ := mem_eraseIdx_getD xs i hilen y hy'
      have hgle : g (xs.getD i default) ≤ g (xs.getD j default) := by
        have := hall j (by simpa using hjlen)
        rwa [hkey i hilen, hkey j hjlen] at this
      rcases lt_or_eq_of_le hgle with hlt | heq
      · left
        rw [hjy] at hlt
        exact hlt
      · right
        refine ⟨by rw [← hjy]; exact heq, ?_⟩
        have hij : i < j := by
          rcases Nat.lt_trichotomy i j with hc | hc | hc
          · exact hc
          · exact absurd hc.symm hjne
          · exfalso
            have hs := hstrict j hc
            rw [hkey i hilen, hkey j hjlen] at hs
            omega
        have hgot := List.pairwise_iff_getElem.mp hpw i j hilen hjlen hij
        rw [← List.getD_eq_getElem xs default hilen,
            ← List.getD_eq_getElem xs default hjlen] at hgot
        rw [← hjy]
        exact hgot

lemma orderAux_map {α β : Type} [Inhabited α] [Inhabited β] (f : α → β) :
    ∀ (n : Nat) (keys : List Int) (xs : List α), keys.length = xs.length →
      orderAux n keys (xs.map f) = (orderAux n keys xs).map f := by
  intro n
  induction n with
  | zero => intros; rfl
  | succ n ih =>
    intro keys xs hlen
    unfold orderAux
    cases h : lowestIndex keys with
    | none => rfl
    | some i =>
      have hi : i < keys.length := lowestIndex_some_lt keys i h
      have hix : i < xs.length := by omega
      show (xs.map f).getD i default ::
          orderAux n (keys.eraseIdx i) ((xs.map f).eraseIdx i) =
        ((xs.getD i default) :: orderAux n (keys.eraseIdx i) (xs.eraseIdx i)).map f
      rw [eraseIdx_map f xs i, ih (keys.eraseIdx i) (xs.eraseIdx i)
        (by rw [List.length_eraseIdx_of_lt hi, List.length_eraseIdx_of_lt hix]; omega)]
      rw [List.map_cons]
      congr 1
      rw [List.getD_eq_getElem (xs.map f) default (by simpa using hix),
          List.getElem_map, List.getD_eq_getElem xs default hix]

/-- C6: `order_closest` returns the input identifiers ordered by
non-decreasing log-distance to the reference, and the order is stable:
annotating the input with positions, the output is a permutation of the
annotated input that is strictly sorted by (log-distance, original
position) lexicographically, and projects onto `order_closest`. -/
theorem claim_C6_order_closest (r : Id) (S : List Id) :
    (r.order_closest S).Perm S ∧
    List.Pairwise (fun a b => r.log_distance a ≤ r.log_distance b) (r.order_closest S) ∧
    ∃ pairs : List (Id × Nat),
      pairs.Perm (S.zip (List.range S.length)) ∧
      pairs.map Prod.fst = r.order_closest S ∧
      List.Pairwise (fun a b => r.log_distance a.1 < r.log_distance b.1 ∨
        (r.log_distance a.1 = r.log_distance b.1 ∧ a.2 < b.2)) pairs := by
  have hzlen : (S.zip (List.range S.length)).length = S.length := by simp
  have hfst : (S.zip (List.range S.length)).map Prod.fst = S :=
    List.map_fst_zip _ _ (by simp)
  have hsnd : (S.zip (List.range S.length)).map Prod.snd = List.range S.length :=
    List.map_snd_zip _ _ (by simp)
  have hpwsnd : List.Pairwise (fun a b : Id × Nat => a.2 < b.2)
      (S.zip (List.range S.length)) := by
    have hr := List.pairwise_lt_range S.length
    rw [← hsnd] at hr
    exact List.pairwise_map.mp hr
  have hkeys : (S.zip (List.range S.length)).map (fun p => r.log_distance p.1) =
      S.map (fun e => r.log_distance e) := by
    calc (S.zip (List.range S.length)).map (fun p => r.log_distance p.1)
        = ((S.zip (List.range S.length)).map Prod.fst).map (fun e => r.log_distance e) := by
          rw [List.map_map]
          rfl
      _ = S.map (fun e => r.log_distance e) := by rw [hfst]
  obtain ⟨hperm, hpw⟩ := orderAux_spec (fun p => r.log_distance p.1) Prod.snd
    (fun p => log_distance_lt r p.1) S.length (S.zip (List.range S.length)) hzlen hpwsnd
  have hcomm : r.order_closest S =
      (orderAux S.length ((S.zip (List.range S.length)).map (fun p => r.log_distance p.1))
        (S.zip (List.range S.length))).map Prod.fst := by
    unfold Id.order_closest
    rw [hkeys, ← orderAux_map Prod.fst S.length _ _ (by simp), hfst]
  refine ⟨?_, ?_, _, hperm, hcomm.symm, hpw⟩
  · rw [hcomm]
    have := hperm.map Prod.fst
    rwa [hfst] at this
  · rw [hcomm]
    apply List.pairwise_map.mpr
    exact hpw.imp (fun hab => by
      rcases hab with hlt | ⟨heq, _⟩
      · exact le_of_lt hlt
      · exact le_of_eq heq)

/-! Frame property of `order_closest`: the input list object is not
mutated. -/

lemma PyHeap.read_write_ne (h : PyHeap) (c r : Nat) (v : List Id) (hne : r ≠ c) :
    (h.write c v).read r = h.read r := by
  unfold PyHeap.read PyHeap.write
  rw [List.getD_eq_getElem?_getD, List.getD_eq_getElem?_getD,
      List.getElem?_set_ne (Ne.symm hne)]

lemma ocHeapLoop_read_other :
    ∀ (n : Nat) (keys : List Int) (c : Nat) (h : PyHeap) (res : List Id) (r : Nat),
      r ≠ c → ((ocHeapLoop n keys c h res).1).read r = h.read r := by
  intro n
  induction n with
  | zero => intros; rfl
  | succ n ih =>
    intro keys c h res r hne
    unfold ocHeapLoop
    cases hl : lowestIndex keys with
    | none => rfl
    | some i =>
      show ((ocHeapLoop n (keys.eraseIdx i) c (h.write c ((h.read c).eraseIdx i))
        (res ++ [(h.read c).getD i default])).1).read r = h.read r
      rw [ih (keys.eraseIdx i) c _ _ r hne]
      exact PyHeap.read_write_ne h c r _ hne

/-- C9: `order_closest` leaves its input list unchanged: in the heap
model, after the call the list object the input reference denotes holds
exactly the elements it held before (all in-place deletes hit the fresh
copy made by `id_list[:]`). -/
theorem claim_C9_no_mutation (self : Id) (h : PyHeap) (r : Nat)
    (hr : r < h.cells.length) :
    ((self.order_closest_heap h r).1).read r = h.read r := by
  unfold Id.order_closest_heap
  show ((ocHeapLoop (h.read r).length ((h.read r).map (fun e => self.log_distance e))
    h.cells.length (PyHeap.mk (h.cells ++ [h.read r])) []).1).read r = h.read r
  rw [ocHeapLoop_read_other _ _ _ _ _ r (by omega)]
  show (h.cells ++ [h.read r]).getD r [] = h.read r
  rw [List.getD_append _ _ _ _ hr]
  rfl

/-- Witness for C9 at a concrete one-cell heap. -/
theorem claim_C9_no_mutation_witness :
    ((zId.order_closest_heap (PyHeap.mk [[oneId, zId]]) 0).1).read 0 =
      (PyHeap.mk [[oneId, zId]]).read 0 :=
  claim_C9_no_mutation zId (PyHeap.mk [[oneId, zId]]) 0 (by decide)

/-! Consistency of the integer form across construction paths. -/

lemma hexVal_lt_16 (c : Nat) : hexVal c < 16 := by
  unfold hexVal
  split_ifs <;> omega

lemma hexVal_toUpper (c : Nat) : hexVal (toUpperByte c) = hexVal c := by
  unfold hexVal toUpperByte
  split_ifs <;> omega

lemma hexVal_hexCharUpper : ∀ d, d < 16 → hexVal (hexCharUpper d) = d := by decide

lemma hexVal_hexCharLower : ∀ d, d < 16 → hexVal (hexCharLower d) = d := by decide

lemma hexToNat_foldl (l : List Nat) :
    ∀ init : Nat, l.foldl (fun acc c => acc * 16 + hexVal c) init =
      init * 16 ^ l.length + hexToNat l := by
  induction l with
  | nil => intro init; simp [hexToNat]
  | cons c t ih =>
    intro init
    show t.foldl _ (init * 16 + hexVal c) = _
    rw [ih (init * 16 + hexVal c)]
    have hc : hexToNat (c :: t) = t.foldl (fun acc u => acc * 16 + hexVal u) (0 * 16 + hexVal c) := rfl
    rw [hc, ih (0 * 16 + hexVal c)]
    simp [List.length_cons, pow_succ]
    ring

lemma hexToNat_cons (c : Nat) (t : List Nat) :
    hexToNat (c :: t) = hexVal c * 16 ^ t.length + hexToNat t := by
  have : hexToNat (c :: t) = t.foldl (fun acc u => acc * 16 + hexVal u) (0 * 16 + hexVal c) := rfl
  rw [this, hexToNat_foldl]
  ring_nf

lemma hexToNat_append (l1 l2 : List Nat) :
    hexToNat (l1 ++ l2) = hexToNat l1 * 16 ^ l2.length + hexToNat l2 := by
  unfold hexToNat
  rw [List.foldl_append]
  exact hexToNat_foldl l2 _

lemma hexToNat_replicate_zero_char (k : Nat) :
    hexToNat (List.replicate k 48) = 0 := by
  induction k with
  | zero => rfl
  | succ m ih =>
    rw [List.replicate_succ, hexToNat_cons, ih]
    simp [hexVal]

lemma hexToNat_map_toUpper (s : List Nat) :
    hexToNat (s.map toUpperByte) = hexToNat s := by
  induction s with
  | nil => rfl
  | cons c t ih =>
    rw [List.map_cons, hexToNat_cons, hexToNat_cons, ih, hexVal_toUpper,
        List.length_map]

lemma hexToNat_b16encode (l : List Nat) (h : ∀ b ∈ l, b < 256) :
    hexToNat (b16encode l) = beVal l := by
  induction l with
  | nil => rfl
  | cons b t ih =>
    have hb : b < 256 := h b (by simp)
    have hd : b / 16 < 16 := by omega
    have hm : b % 16 < 16 := Nat.mod_lt _ (by omega)
    show hexToNat (hexCharUpper (b / 16) :: hexCharUpper (b % 16) :: b16encode t) = _
    rw [hexToNat_cons, hexToNat_cons, ih (fun c hc => h c (by simp [hc])),
        hexVal_hexCharUpper _ hd, hexVal_hexCharUpper _ hm, beVal_cons]
    have hlen : (b16encode t).length = 2 * t.length := by
      clear ih h hb
      induction t with
      | nil => rfl
      | cons u t2 ih2 =>
        show (b16encode (u :: t2)).length = _
        rw [show b16encode (u :: t2) =
          hexCharUpper (u / 16) :: hexCharUpper (u % 16) :: b16encode t2 from rfl]
        simp only [List.length_cons, ih2]
        omega
    have h16 : (16 : Nat) ^ (b16encode t).length = 256 ^ t.length := by
      rw [hlen, show (256 : Nat) = 16 ^ 2 by norm_num, ← pow_mul]
    rw [List.length_cons, pow_succ, h16]
    have hsplit : b = b / 16 * 16 + b % 16 := by omega
    calc b / 16 * (256 ^ t.length * 16) + (b % 16 * 256 ^ t.length + beVal t)
        = (b / 16 * 16 + b % 16) * 256 ^ t.length + beVal t := by ring
      _ = b * 256 ^ t.length + beVal t := by rw [← hsplit]

lemma unhexlify_ok : ∀ (s l : List Nat), unhexlify s = .ok l →
    hexToNat s = beVal l ∧ (∀ b ∈ l, b < 256) ∧ s.length = 2 * l.length
  | [], l, h => by
    injection h with h2
    subst h2
    exact ⟨rfl, by simp, rfl⟩
  | [c], l, h => by
    simp [unhexlify] at h
  | c1 :: c2 :: rest, l, h => by
    unfold unhexlify at h
    split at h
    · split at h
      · cases hrest : unhexlify rest with
        | error e => rw [hrest] at h; simp at h
        | ok bs =>
          rw [hrest] at h
          injection h with h2
          subst h2
          obtain ⟨ihv, ihb, ihl⟩ := unhexlify_ok rest bs hrest
          have h16 : (16 : Nat) ^ rest.length = 256 ^ bs.length := by
            rw [ihl, show (256 : Nat) = 16 ^ 2 by norm_num, ← pow_mul]
          refine ⟨?_, ?_, ?_⟩
          · rw [hexToNat_cons, hexToNat_cons, beVal_cons, ihv,
              List.length_cons, pow_succ, h16]
            ring
          · intro b hbm
            rcases List.mem_cons.mp hbm with rfl | hbm'
            · have := hexVal_lt_16 c1
              have := hexVal_lt_16 c2
              omega
            · exact ihb b hbm'
          · simp only [List.length_cons, ihl]
            omega
      · simp at h
    · simp at h

lemma b16decode_ok (s l : List Nat) (cf : Bool)
    (h : b16decode s cf = .ok l) :
    unhexlify (if cf then s.map toUpperByte else s) = .ok l := by
  simp only [b16decode] at h
  by_cases hany :
      ((if cf then s.map toUpperByte else s).any fun c => !(isUpperHexByte c)) = true
  · rw [if_pos hany] at h
    exact absurd h (by simp)
  · rw [if_neg hany] at h
    exact h

lemma hexToNat_natToHexCharsAux :
    ∀ (fuel n : Nat), n < 16 ^ fuel → hexToNat (natToHexCharsAux fuel n) = n := by
  intro fuel
  induction fuel with
  | zero =>
    intro n hn
    have : n = 0 := by simpa using hn
    subst this
    rfl
  | succ fuel ih =>
    intro n hn
    unfold natToHexCharsAux
    by_cases h16 : n < 16
    · rw [if_pos h16]
      rw [hexToNat_cons]
      simp [hexVal_hexCharLower n h16, hexToNat]
    · rw [if_neg h16]
      have hdiv : n / 16 < 16 ^ fuel := by
        rw [Nat.div_lt_iff_lt_mul (by omega)]
        calc n < 16 ^ (fuel + 1) := hn
          _ = 16 ^ fuel * 16 := by rw [pow_succ]
      rw [hexToNat_append, ih (n / 16) hdiv]
      have hm : n % 16 < 16 := Nat.mod_lt _ (by omega)
      rw [hexToNat_cons]
      simp only [List.length_cons, List.length_nil, pow_succ, pow_zero,
        hexVal_hexCharLower _ hm]
      have := Nat.div_add_mod n 16
      simp [hexToNat]
      omega

lemma hexToNat_natToHexChars (n : Nat) :
    hexToNat (natToHexChars n) = n := by
  apply hexToNat_natToHexCharsAux
  calc n < 2 ^ n := Nat.lt_two_pow n
    _ ≤ 16 ^ n := Nat.pow_le_pow_left (by omega) n
    _ ≤ 16 ^ (n + 1) := Nat.pow_le_pow_right (by omega) (by omega)

lemma hexToNat_leftPad0 (w : Nat) (l : List Nat) :
    hexToNat (leftPad0 w l) = hexToNat l := by
  unfold leftPad0
  rw [hexToNat_append, hexToNat_replicate_zero_char]
  ring_nf

lemma percent040x_neg_err (n : Int) (hn : n < 0) :
    b16decode (percent040x n) false = .error .typeError := by
  unfold percent040x
  rw [if_pos hn]
  unfold b16decode
  rw [if_pos]
  simp [isUpperHexByte]

lemma WF_int_eq_beVal (x : Id) (h : x.WF) : x.int = beVal x.bin_id := by
  obtain ⟨inp, hok, hmk⟩ := h
  cases inp with
  | str s =>
    simp only [Id.make] at hmk
    by_cases h20 : s.length = ID_SIZE_BYTES
    · rw [if_pos h20] at hmk
      injection hmk with h2
      subst h2
      show hexToNat (b16encode s) = beVal s
      exact hexToNat_b16encode s hok
    · rw [if_neg h20] at hmk
      by_cases h40 : s.length = ID_SIZE_BYTES * 2
      · rw [if_pos h40] at hmk
        cases hhb : hex_to_bin s with
        | error e => rw [hhb] at hmk; simp at hmk
        | ok b =>
          rw [hhb] at hmk
          injection hmk with h2
          subst h2
          show hexToNat s = beVal b
          have hdec : b16decode s true = .ok b := by
            unfold hex_to_bin at hhb
            cases hd : b16decode s true with
            | ok bb => rw [hd] at hhb; injection hhb with h3; rw [h3]
            | error e => rw [hd] at hhb; simp at hhb
          have huh := b16decode_ok s b true hdec
          rw [if_pos rfl] at huh
          have := (unhexlify_ok _ _ huh).1
          rwa [hexToNat_map_toUpper] at this
      · rw [if_neg h40] at hmk
        simp at hmk
  | intg n =>
    simp only [Id.make] at hmk
    have hn0 : ¬ n < 0 := by
      intro hneg
      rw [percent040x_neg_err n hneg] at hmk
      simp at hmk
    cases hd : b16decode (percent040x n) false with
    | error e => rw [hd] at hmk; simp at hmk
    | ok b =>
      rw [hd] at hmk
      injection hmk with h2
      subst h2
      have huh := b16decode_ok _ b false hd
      rw [if_neg (by simp)] at huh
      have hval := (unhexlify_ok _ _ huh).1
      have hpx : hexToNat (percent040x n) = n.toNat := by
        unfold percent040x
        rw [if_neg hn0, hexToNat_leftPad0, hexToNat_natToHexChars]
      show Id.int ⟨b, some (percent040x n), some n.toNat⟩ = beVal b
      unfold Id.int
      by_cases hz : n.toNat = 0
      · rw [hz]
        show hexToNat (Id.hex ⟨b, some (percent040x n), some 0⟩) = beVal b
        show hexToNat (percent040x n) = beVal b
        rw [← hval]
      · show (if n.toNat = 0 then hexToNat (Id.hex ⟨b, some (percent040x n), some n.toNat⟩)
          else n.toNat) = beVal b
        rw [if_neg hz, ← hval, hpx]

/-- C8 amended: equal identifiers always produce the same integer form,
regardless of which construction path produced each; the hex form,
however, is not canonicalized across paths (an identifier built from a
hex string keeps the verbatim input case, while one built from bytes
renders uppercase), as the counterexample shows. -/
theorem claim_C8_amended (a b : Id) (ha : a.WF) (hb : b.WF)
    (heq : a.bin_id = b.bin_id) : a.int = b.int := by
  rw [WF_int_eq_beVal a ha, WF_int_eq_beVal b hb, heq]

/-- Witness for C8 amended: the two equal all-ones identifiers built from
the lowercase hex string and from the raw bytes agree on the integer
form. -/
theorem claim_C8_amended_witness : ffHexId.int = ffBinId.int :=
  claim_C8_amended ffHexId ffBinId
    ⟨.str ffHex, (by decide : ∀ c ∈ ffHex, c < 256), by decide⟩
    ⟨.str ffBin, (by decide : ∀ c ∈ ffBin, c < 256), by decide⟩
    (by decide)

end Pymdht
